import Mathlib

/-!
Verification of the Canvas-quiz-CSV-to-LaTeX converter
(`canvas_to_latex.py`).

The program is shallowly embedded over `List Char` / `String`:

* `HTMLToLatexConverter.html_to_latex` (the plain-text branch and the
  post-extraction pipeline of the HTML branch) is modelled by
  `plainBranch` / `htmlPostProcess` / `html_to_latex` below;
* `HTMLToLatexConverter.convert_equation_image` by `convert_equation_image`;
* `CanvasQuizParser._extract_questions_from_headers` by `extract_questions`;
* `CanvasQuizParser.get_student_data` by `get_student_data`;
* `LaTeXGenerator.generate_questions_section`'s answer classification by
  `answerSection`.

Each specific Python regular expression used by the program
(`r'  +'`, `r'\d+\.\s+'`, `r'\n\s*\n'`, `r'\n\s*\n+'`,
`r'\([^)]*\^[^)]*\)(?:\^\d+)?|\w\^[\w/]+'`, `r'\.\s+'`,
`r'(while|if|else|begin|return|for|Input:|Output:)'`, `r'[A-Z]\[.*\]'`,
`r'\$.*\$'`) is modelled by a dedicated matcher with Python's
leftmost, greedy, non-overlapping `re.sub` / `re.search` semantics.
Character classes `\s`, `\d`, `\w` are modelled over their ASCII range;
all inputs considered here are ASCII apart from the three Unicode
spaces the program itself normalises away first.

Scanners that skip a variable number of characters per step take a fuel
argument (instantiated with the input length, which each of them never
exceeds because every step consumes at least one character), so that every
definition reduces in the kernel.

The BeautifulSoup HTML parsing itself (tag traversal) is not embedded;
`html_to_latex` takes the text-extraction stage as a function parameter
`soupText`, which none of the theorems below depend on since they concern
the plain-text branch or the post-extraction pipeline.
-/

/-- Python `\s` over the ASCII range (`str.strip` uses the same set). -/
def isPyWs (c : Char) : Bool :=
  c = ' ' || c = '\t' || c = '\n' || c = '\r' || c = '\x0b' || c = '\x0c'

/-- Python `\d` over the ASCII range. -/
def isPyDigit (c : Char) : Bool :=
  '0' ≤ c && c ≤ '9'

/-- Python `\w` over the ASCII range. -/
def isPyWord (c : Char) : Bool :=
  isPyDigit c || ('a' ≤ c && c ≤ 'z') || ('A' ≤ c && c ≤ 'Z') || c = '_'

/-- Python `str.strip()`: remove leading and trailing whitespace. -/
def pyStrip (l : List Char) : List Char :=
  ((l.dropWhile isPyWs).reverse.dropWhile isPyWs).reverse

/-- `pat` occurs as a contiguous substring of `l` (Python `pat in l`,
and the truth value of `re.search` on an alternation of literals). -/
def hasSubstr (pat : List Char) (l : List Char) : Bool :=
  match l with
  | [] => pat.isEmpty
  | _ :: rest => pat.isPrefixOf l || hasSubstr pat rest

/-- Python `str.replace(c, rep)` for a single-character pattern `c`:
every occurrence of `c` becomes `rep`. -/
def replaceChar (c : Char) (rep : List Char) : List Char → List Char
  | [] => []
  | x :: rest => (if x = c then rep else [x]) ++ replaceChar c rep rest

/-- Python `str.replace('    ', rep)`: every non-overlapping run of four
spaces (scanned left to right) becomes `rep` (source line 122 uses
`rep = "\quad "`). -/
def replaceQuad (rep : List Char) : List Char → List Char
  | ' ' :: ' ' :: ' ' :: ' ' :: rest => rep ++ replaceQuad rep rest
  | c :: rest => c :: replaceQuad rep rest
  | [] => []

/-- Python `re.sub(r'  +', ' ', text)`: collapse every run of two or more
spaces to a single space (source lines 96 and 167). -/
def collapseSpaces : List Char → List Char
  | ' ' :: ' ' :: rest => collapseSpaces (' ' :: rest)
  | c :: rest => c :: collapseSpaces rest
  | [] => []

/-- Python `text.split('\n')`. -/
def splitNl : List Char → List (List Char)
  | [] => [[]]
  | '\n' :: rest => [] :: splitNl rest
  | c :: rest =>
    match splitNl rest with
    | line :: lines => (c :: line) :: lines
    | [] => [[c]]

/-- Python `'\n\n'.join(lines)` (source line 123). -/
def joinNlNl : List (List Char) → List Char
  | [] => []
  | [l] => l
  | l :: ls => l ++ '\n' :: '\n' :: joinNlNl ls

/-- Length of the match of `r'\d+\.\s+'` at the head of `l`, if any:
a maximal nonempty digit run, a dot, then a maximal nonempty whitespace
run (the greedy quantifiers admit no other decomposition here). -/
def numberedMatchLen (l : List Char) : Option Nat :=
  let ds := l.takeWhile isPyDigit
  if ds.isEmpty then none
  else
    match l.drop ds.length with
    | '.' :: rest =>
      let ws := rest.takeWhile isPyWs
      if ws.isEmpty then none else some (ds.length + 1 + ws.length)
    | _ => none

/-- Truth value of Python `re.search(r'\d+\.\s+', text)`
(source lines 100 and 172). -/
def hasNumbered : List Char → Bool
  | [] => false
  | c :: rest => (numberedMatchLen (c :: rest)).isSome || hasNumbered rest

/-- Python `re.sub(r'(\d+\.\s+)', r'\n\1', text)` (source lines 103 and
175): prepend a newline to every non-overlapping match, scanning left to
right. Fueled; every step consumes at least one character, so fuel equal
to the input length is enough. -/
def numberedSubAux : Nat → List Char → List Char
  | 0, l => l
  | _ + 1, [] => []
  | fuel + 1, c :: rest =>
    match numberedMatchLen (c :: rest) with
    | some n => '\n' :: ((c :: rest).take n ++ numberedSubAux fuel ((c :: rest).drop n))
    | none => c :: numberedSubAux fuel rest

def numberedSub (l : List Char) : List Char :=
  numberedSubAux l.length l

/-- Length of the match of `r'\n\s*\n'` (equally of `r'\n\s*\n+'`) at the
head of `l`, if any.  Either pattern needs a newline at the head and at
least one further newline inside the maximal whitespace run that follows;
with greedy backtracking both end right after the last newline of that
run. -/
def nlRunMatchLen (l : List Char) : Option Nat :=
  match l with
  | '\n' :: rest =>
    let run := rest.takeWhile isPyWs
    if run.contains '\n' then
      some (1 + run.length - (run.reverse.takeWhile (fun c => c ≠ '\n')).length)
    else none
  | _ => none

/-- Shared scanner for `re.sub(r'\n\s*\n', rep, ·)` (source line 165,
`rep = "\n\n"`) and `re.sub(r'\n\s*\n+', rep, ·)` (source lines 361 and
376, `rep = "\n"`). -/
def nlRunSubAux (rep : List Char) : Nat → List Char → List Char
  | 0, l => l
  | _ + 1, [] => []
  | fuel + 1, c :: rest =>
    match nlRunMatchLen (c :: rest) with
    | some n => rep ++ nlRunSubAux rep fuel ((c :: rest).drop n)
    | none => c :: nlRunSubAux rep fuel rest

/-- `re.sub(r'\n\s*\n', '\n\n', text)`, source line 165. -/
def paraSub (l : List Char) : List Char :=
  nlRunSubAux ['\n', '\n'] l.length l

/-- `re.sub(r'\n\s*\n+', '\n', text)`, source lines 361 and 376. -/
def blankLineSub (l : List Char) : List Char :=
  nlRunSubAux ['\n'] l.length l

/-- Length of the match of
`r'\([^)]*\^[^)]*\)(?:\^\d+)?|\w\^[\w/]+'` at the head of `l`, if any
(source line 195).  The first alternative matches from `'('` to the first
following `')'` provided a `'^'` lies strictly between, optionally
extended by `'^'` plus a maximal nonempty digit run; the second matches a
word character, `'^'`, then a maximal nonempty run of word characters or
`'/'`.  At any single position at most one alternative can apply since
`'('` is not a word character. -/
def mathMatchLen (l : List Char) : Option Nat :=
  match l with
  | '(' :: rest =>
    let inner := rest.takeWhile (fun c => c ≠ ')')
    if inner.length < rest.length && inner.contains '^' then
      let expLen :=
        match rest.drop (inner.length + 1) with
        | '^' :: a2 =>
          let ds := a2.takeWhile isPyDigit
          if ds.isEmpty then 0 else ds.length + 1
        | _ => 0
      some (1 + inner.length + 1 + expLen)
    else none
  | c :: '^' :: rest =>
    if isPyWord c then
      let tl := rest.takeWhile (fun x => isPyWord x || x = '/')
      if tl.isEmpty then none else some (2 + tl.length)
    else none
  | _ => none

/-- `HTMLToLatexConverter.html_to_latex.convert_math_expr`
(source lines 180-192): the replacement callback of the math pass. -/
def convert_math_expr (expr : List Char) : List Char :=
  -- `if expr.startswith('$'): return expr`
  if expr.head? = some '$' then expr
  else
    -- `re.match(r'\(([^)]*\^[^)]*)\)(\^\d+)?', expr)`
    match expr with
    | '(' :: rest =>
      let inner := rest.takeWhile (fun c => c ≠ ')')
      if inner.length < rest.length && inner.contains '^' then
        let exps :=
          match rest.drop (inner.length + 1) with
          | '^' :: a2 =>
            let ds := a2.takeWhile isPyDigit
            if ds.isEmpty then [] else '^' :: '\x7b' :: (ds ++ ['\x7d'])
          | _ => []
        '$' :: '(' :: (inner ++ ')' :: (exps ++ ['$']))
      else '$' :: (expr ++ ['$'])
    | _ => '$' :: (expr ++ ['$'])

/-- The math pass `re.sub(r'\([^)]*\^[^)]*\)(?:\^\d+)?|\w\^[\w/]+',
convert_math_expr, text)` of source line 195. -/
def mathSubAux : Nat → List Char → List Char
  | 0, l => l
  | _ + 1, [] => []
  | fuel + 1, c :: rest =>
    match mathMatchLen (c :: rest) with
    | some n =>
      convert_math_expr ((c :: rest).take n) ++ mathSubAux fuel ((c :: rest).drop n)
    | none => c :: mathSubAux fuel rest

def mathSub (l : List Char) : List Char :=
  mathSubAux l.length l

/-- Truth value of `re.search(r'\$.*\$', text)` (source line 198): two
dollar signs with no intervening newline, i.e. some `'\n'`-separated
segment contains at least two dollar signs. -/
def dollarSpan (l : List Char) : Bool :=
  (splitNl l).any (fun line => 2 ≤ line.count '$')

/-- Source lines 109-111 and 199-202: `text.replace('&', r'\&')`,
then `'%'`, then `'#'` (the "has LaTeX" escape path). -/
def escape3 (l : List Char) : List Char :=
  replaceChar '#' ['\\', '#']
    (replaceChar '%' ['\\', '%']
      (replaceChar '&' ['\\', '&'] l))

/-- Source lines 113-116 and 204-207: the "no LaTeX" escape path, which
replaces, in this order, `'&' '%' '$' '#' '_'` by their entries in
`LATEX_SPECIAL_CHARS`. -/
def escape5 (l : List Char) : List Char :=
  replaceChar '_' ['\\', '_']
    (replaceChar '#' ['\\', '#']
      (replaceChar '$' ['\\', '$']
        (replaceChar '%' ['\\', '%']
          (replaceChar '&' ['\\', '&'] l))))

/-- Source lines 90-93 and 160-162: replace the non-breaking space, em
space and en space by plain spaces. -/
def unicodeSpaces (l : List Char) : List Char :=
  replaceChar '\u2002' [' ']
    (replaceChar '\u2003' [' ']
      (replaceChar '\u00A0' [' '] l))

/-- The plain-text branch of `html_to_latex` before the escaping step
(source lines 88-104): strip, normalise Unicode spaces, collapse space
runs, numbered-line reconstruction. -/
def preEscape (s : String) : List Char :=
  let text := pyStrip s.data
  let text := unicodeSpaces text
  let text := collapseSpaces text
  if hasNumbered text then pyStrip (numberedSub text) else text

/-- The plain-text branch of `html_to_latex` up to and including the
escaping step (source lines 88-116). -/
def plainPipeline (s : String) : List Char :=
  if (preEscape s).contains '\\' || (preEscape s).contains '$' then
    escape3 (preEscape s)
  else escape5 (preEscape s)

/-- The replacement text of source line 122, `r'\quad '`. -/
def quadRep : List Char :=
  '\\' :: 'q' :: 'u' :: 'a' :: 'd' :: [' ']

/-- The full plain-text branch (source lines 87-125), including the
question-context algorithm formatting of lines 118-125: split into lines,
replace each four-space run by `"\quad "`, and join with blank lines. -/
def plainBranch (s : String) (is_question : Bool) : List Char :=
  let text := plainPipeline s
  if is_question && text.contains '\n' then
    joinNlNl ((splitNl text).map (replaceQuad quadRep))
  else text

/-- The HTML branch after text extraction (source lines 159-209):
normalise Unicode spaces, tidy paragraph breaks, collapse space runs,
strip, numbered-line reconstruction, the math pass, then escape. -/
def htmlPostProcess (extracted : String) : String :=
  let text := unicodeSpaces extracted.data
  let text := paraSub text
  let text := collapseSpaces text
  let text := pyStrip text
  let text := if hasNumbered text then pyStrip (numberedSub text) else text
  let text := mathSub text
  ⟨if text.contains '\\' || dollarSpan text then escape3 text else escape5 text⟩

/-- `HTMLToLatexConverter.html_to_latex` (source lines 79-209).  `none`
models a NaN cell (`pd.isna`), and the empty string is falsy in Python.
`soupText` stands for the BeautifulSoup stage of the HTML branch (source
lines 128-157): tag replacement followed by `soup.get_text(separator=' ')`;
it is a parameter because tag parsing is outside this embedding, and it is
irrelevant to inputs without `'<'`. -/
def html_to_latex (soupText : String → String) (html_content : Option String)
    (is_question : Bool) : String :=
  match html_content with
  | none => ""
  | some s =>
    if s = "" then ""
    else if s.data.contains '<' = false then ⟨plainBranch s is_question⟩
    else htmlPostProcess (soupText s)

/-- A Canvas equation `img` tag, reduced to the two attributes the
program reads.  BeautifulSoup's `img_tag.get(attr, '')` returns `''` for
a missing attribute, so an absent attribute is the empty string. -/
structure ImgTag where
  dataEquationContent : String
  title : String
deriving DecidableEq

/-- Python `str.startswith(pre)`. -/
def startsWithS (s pre : String) : Bool :=
  pre.data.isPrefixOf s.data

/-- `HTMLToLatexConverter.convert_equation_image` (source lines 58-77). -/
def convert_equation_image (img : ImgTag) : String :=
  if img.dataEquationContent ≠ "" then
    if startsWithS img.dataEquationContent "$" = false then
      "$" ++ img.dataEquationContent ++ "$"
    else img.dataEquationContent
  else if img.title ≠ "" then
    if startsWithS img.title "$" = false then "$" ++ img.title ++ "$"
    else img.title
  else ""

/-- The contribution of an equation image to the extracted text:
`img.replace_with(f' {latex} ')` (source line 134). -/
def equationContribution (img : ImgTag) : String :=
  " " ++ convert_equation_image img ++ " "

/-- Python `str(answer).strip()` on a string cell, as a `String`. -/
def pyStripS (s : String) : String :=
  ⟨pyStrip s.data⟩

/-- One registered column group of `CanvasQuizParser.questions`
(source lines 252-258): the question text (the header of the answer
column) and the column offsets of the group. -/
structure QInfo where
  text : String
  item_type_col : Nat
  question_col : Nat
  earned_points_col : Nat
  status_col : Nat
deriving DecidableEq

/-- One data row of the CSV.  `cells` is the positional row
(`row.iloc[i]`), a missing/NaN cell being `none`; `name` and `id` are
`row['Name']` and `row['ID']` (per the export schema the first two
columns; their values do not interact with the cells logic). -/
structure Row where
  name : String
  id : String
  cells : List (Option String)
deriving DecidableEq

/-- `row.iloc[i]`; an index beyond the row is treated as a missing cell. -/
def cellAt (r : Row) (i : Nat) : Option String :=
  (r.cells.drop i).headD none

/-- One entry of `questions_answered` (source lines 298-301). -/
structure AnsweredQ where
  question_text : String
  answer : String
deriving DecidableEq

/-- The inner loop of `get_student_data` (source lines 286-301): for each
registered group, keep it iff `item_type == 'essay'`, `status == 'Graded'`,
`pd.notna(answer)` and `str(answer).strip() != ''`. -/
def answeredQuestions (r : Row) : List QInfo → List AnsweredQ
  | [] => []
  | q :: qs =>
    match cellAt r q.question_col with
    | some a =>
      if cellAt r q.item_type_col = some "essay" ∧
          cellAt r q.status_col = some "Graded" ∧ pyStripS a ≠ "" then
        ⟨q.text, a⟩ :: answeredQuestions r qs
      else answeredQuestions r qs
    | none => answeredQuestions r qs

/-- One entry of the `students` list (source lines 304-308). -/
structure Student where
  name : String
  id : String
  questions : List AnsweredQ
deriving DecidableEq

/-- `pandas.DataFrame.head(n)`: the first `n` rows for `n ≥ 0`, all rows
but the last `|n|` for `n < 0`. -/
def pdHead (rows : List Row) (n : Int) : List Row :=
  if 0 ≤ n then rows.take n.toNat else rows.take (rows.length - (-n).toNat)

/-- Source line 277: `rows_to_process = self.df.head(limit) if limit else
self.df`.  `none` models `limit=None`; `0` is falsy in Python. -/
def rowsToProcess (rows : List Row) (limit : Option Int) : List Row :=
  match limit with
  | none => rows
  | some n => if n = 0 then rows else pdHead rows n

/-- The row loop of `get_student_data` (source lines 279-308): a student
is emitted iff `questions_answered` is nonempty. -/
def gsdRows (qs : List QInfo) : List Row → List Student
  | [] => []
  | r :: rest =>
    let qa := answeredQuestions r qs
    if qa.isEmpty then gsdRows qs rest
    else ⟨r.name, r.id, qa⟩ :: gsdRows qs rest

/-- `CanvasQuizParser.get_student_data` (source lines 264-310), with the
registered groups `qs` passed explicitly (`self.questions.items()` in
insertion order). -/
def get_student_data (qs : List QInfo) (rows : List Row)
    (limit : Option Int) : List Student :=
  gsdRows qs (rowsToProcess rows limit)

/-- `columns[i]` in the header scan; the scan guards every access with
`i + 4 < len(columns)` so the default is never read where it is used. -/
def columnsGet (cols : List String) (i : Nat) : String :=
  (cols.drop i).headD ""

/-- The outer test of the header scan (source line 236):
`columns[i].startswith('ItemID') and i + 4 < len(columns)`. -/
def itemIdHere (cols : List String) (i : Nat) : Bool :=
  startsWithS (columnsGet cols i) "ItemID" && i + 4 < cols.length

/-- The inner verification of the header scan (source lines 245-247):
the headers at offsets +1, +3 and +4 start with `ItemType`,
`EarnedPoints` and `Status`. -/
def groupLabelsOk (cols : List String) (i : Nat) : Bool :=
  startsWithS (columnsGet cols (i + 1)) "ItemType" &&
    startsWithS (columnsGet cols (i + 3)) "EarnedPoints" &&
    startsWithS (columnsGet cols (i + 4)) "Status"

/-- How the scan pointer of `_extract_questions_from_headers` advances
from position `i` (source lines 260-262): by 5 whenever the outer
`ItemID` test succeeded — whether or not the inner labels matched — and
by 1 otherwise. -/
def scanNext (cols : List String) (i : Nat) : Nat :=
  if itemIdHere cols i then i + 5 else i + 1

/-- The registered entry for a group found at position `i`
(source lines 249-258), keyed by the Status column index `i + 4`. -/
def groupEntry (cols : List String) (i : Nat) : Nat × QInfo :=
  (i + 4, ⟨columnsGet cols (i + 2), i + 1, i + 2, i + 3, i + 4⟩)

/-- The `while i < len(columns)` loop of
`_extract_questions_from_headers` (source lines 233-262), fueled; each
iteration advances `i` by at least 1, so `cols.length` iterations
suffice. -/
def extractLoop (cols : List String) : Nat → Nat → List (Nat × QInfo)
  | 0, _ => []
  | fuel + 1, i =>
    if i < cols.length then
      (if itemIdHere cols i && groupLabelsOk cols i then [groupEntry cols i]
       else []) ++ extractLoop cols fuel (scanNext cols i)
    else []

/-- `CanvasQuizParser._extract_questions_from_headers`: the
`self.questions` mapping in insertion order (keys, the Status column
indices, are strictly increasing, so the association list is a faithful
model of the Python dict). -/
def extract_questions (cols : List String) : List (Nat × QInfo) :=
  extractLoop cols cols.length 0

/-- The keyword alternation of source line 355.  The truth value of
`re.search` on an alternation of literals is plain substring search. -/
def codeKeywords : List String :=
  ["while", "if", "else", "begin", "return", "for", "Input:", "Output:"]

def codeKeywordCue (l : List Char) : Bool :=
  codeKeywords.any (fun k => hasSubstr k.data l)

/-- `r'[A-Z]\[.*\]'` matching at the head of `l`: an ASCII capital, `'['`,
then a `']'` somewhere before the next newline (`.` does not match
`'\n'`). -/
def arrayCueAt (l : List Char) : Bool :=
  match l with
  | c :: '[' :: rest =>
    ('A' ≤ c && c ≤ 'Z') && (rest.takeWhile (fun x => x ≠ '\n')).contains ']'
  | _ => false

/-- Truth value of `re.search(r'[A-Z]\[.*\]', answer_text)`
(source line 356). -/
def arrayCue : List Char → Bool
  | [] => false
  | c :: rest => arrayCueAt (c :: rest) || arrayCue rest

/-- `answer_looks_like_code` (source lines 353-357). -/
def answer_looks_like_code (t : List Char) : Bool :=
  t.contains '\n' && (codeKeywordCue t || arrayCue t)

/-- Length of the match of `r'\.\s+'` at the head of `l`: a dot followed
by a maximal nonempty whitespace run. -/
def sentenceMatchLen (l : List Char) : Option Nat :=
  match l with
  | '.' :: rest =>
    let ws := rest.takeWhile isPyWs
    if ws.isEmpty then none else some (1 + ws.length)
  | _ => none

/-- `re.sub(r'\.\s+', r'. \\\\ ', answer_text)` (source line 368); the
processed replacement text is `". \\ "` (dot, space, two backslashes,
space). -/
def sentenceSubAux : Nat → List Char → List Char
  | 0, l => l
  | _ + 1, [] => []
  | fuel + 1, c :: rest =>
    match sentenceMatchLen (c :: rest) with
    | some n =>
      '.' :: ' ' :: '\\' :: '\\' :: ' ' :: sentenceSubAux fuel ((c :: rest).drop n)
    | none => c :: sentenceSubAux fuel rest

def sentenceSub (l : List Char) : List Char :=
  sentenceSubAux l.length l

/-- The replacement of source line 362, `code_text.replace('\n', ' \\\\\n')`:
each newline becomes space, two backslashes, newline. -/
def lineBreakRep : List Char :=
  [' ', '\\', '\\', '\n']

/-- The small-font wrapper
`f"""\\begin{{small}}\n{code_text}\n\\end{{small}}"""`
(source lines 363-365). -/
def smallWrap (code : List Char) : List Char :=
  ('\\' :: 'b' :: 'e' :: 'g' :: 'i' :: 'n' :: '\x7b' :: 's' :: 'm' :: 'a' :: 'l' :: 'l' :: '\x7d' :: ['\n'])
    ++ code ++
    ('\n' :: '\\' :: 'e' :: 'n' :: 'd' :: '\x7b' :: 's' :: 'm' :: 'a' :: 'l' :: 'l' :: ['\x7d'])

/-- The `answer_section` classification of
`LaTeXGenerator.generate_questions_section` (source lines 352-371). -/
def answerSection (t : List Char) : List Char :=
  if answer_looks_like_code t then
    smallWrap (replaceChar '\n' lineBreakRep (blankLineSub t))
  else if !t.contains '\n' && t.length > 200 then
    sentenceSub t
  else t

/-- The five characters the program's "no LaTeX" escape path rewrites. -/
def specialFive (c : Char) : Bool :=
  c = '&' || c = '%' || c = '$' || c = '#' || c = '_'

/-- The per-character image of `escape5` (the composite of its five
sequential `str.replace` calls on a single character); used to reason
about `escape5`. -/
def escFive (c : Char) : List Char :=
  if c = '&' then ['\\', '&']
  else if c = '%' then ['\\', '%']
  else if c = '$' then ['\\', '$']
  else if c = '#' then ['\\', '#']
  else if c = '_' then ['\\', '_']
  else [c]

/-- Claim-side formalisation of "every occurrence of `& % $ # _` is
escaped per the substitution table and no unescaped occurrence remains":
scanning with the preceding character, every special character must be
immediately preceded by a backslash. `prev` is the character before the
scanned suffix; the initial sentinel is a space (not a backslash). -/
def escapedPairOKAux (prev : Char) : List Char → Bool
  | [] => true
  | c :: rest => (!specialFive c || prev == '\\') && escapedPairOKAux c rest

def escapedPairOK (l : List Char) : Bool :=
  escapedPairOKAux ' ' l

/-- No two consecutive spaces occur (the state of any text downstream of
the space-collapsing step). -/
def noTwoSpaces : List Char → Bool
  | c :: d :: rest => !(c = ' ' && d = ' ') && noTwoSpaces (d :: rest)
  | _ => true

/-- Modelled from the spec sentence of C4: the scan-pointer update the
claim describes — advance by 5 only when the `ItemID` test *and* the
label verification both succeed, else advance by 1.  Stated only to be
compared with the program's `scanNext`. -/
def claimScanNext (cols : List String) (i : Nat) : Nat :=
  if itemIdHere cols i && groupLabelsOk cols i then i + 5 else i + 1

/-! ## Theorems -/

theorem gsdRows_eq (qs : List QInfo) (rows : List Row) :
    gsdRows qs rows =
      (rows.filter (fun r => !(answeredQuestions r qs).isEmpty)).map
        (fun r => ⟨r.name, r.id, answeredQuestions r qs⟩) := by
  induction rows with
  | nil => rfl
  | cons r rest ih =>
    simp only [gsdRows, List.filter]
    cases h : (answeredQuestions r qs).isEmpty <;> simp [h, ih]

theorem answeredQuestions_single (r : Row) (q : QInfo) :
    (answeredQuestions r [q]).isEmpty = false ↔
      (cellAt r q.item_type_col = some "essay" ∧
        cellAt r q.status_col = some "Graded" ∧
        ∃ a, cellAt r q.question_col = some a ∧ pyStripS a ≠ "") := by
  cases hc : cellAt r q.question_col with
  | none => simp [answeredQuestions, hc]
  | some a =>
    simp only [answeredQuestions, hc]
    by_cases h : cellAt r q.item_type_col = some "essay" ∧
        cellAt r q.status_col = some "Graded" ∧ pyStripS a ≠ "" <;>
      simp [h]

/-- C1: the students emitted by `get_student_data` are exactly, in order,
the data rows with at least one answered question — where a (row, group)
pair yields an `AnsweredQ` iff the group's ItemType cell is `"essay"`,
its Status cell is `"Graded"`, and the answer cell is present and
non-blank after trimming.  A row with zero such questions yields no
student record. -/
theorem C1_students_are_rows_with_answers (qs : List QInfo) (rows : List Row) :
    get_student_data qs rows none =
      (rows.filter (fun r => !(answeredQuestions r qs).isEmpty)).map
        (fun r => ⟨r.name, r.id, answeredQuestions r qs⟩) ∧
    ∀ (r : Row) (q : QInfo),
      (answeredQuestions r [q]).isEmpty = false ↔
        (cellAt r q.item_type_col = some "essay" ∧
          cellAt r q.status_col = some "Graded" ∧
          ∃ a, cellAt r q.question_col = some a ∧ pyStripS a ≠ "") :=
  ⟨gsdRows_eq qs rows, fun r q => answeredQuestions_single r q⟩

/-- C4 (amended): in the header scan, whenever the column at the scan
position starts with `ItemID` and four more columns remain, the headers
at offsets +1, +3, +4 are tested; on a match the group is registered
keyed by the Status column index `i + 4`, on a mismatch of those labels
nothing is registered — but in both cases the pointer advances by 5.
It advances by 1 exactly when the `ItemID` test itself fails. -/
theorem C4_scan_advances_by_five_even_on_label_mismatch
    (cols : List String) (i : Nat) :
    (itemIdHere cols i = true → scanNext cols i = i + 5) ∧
    (itemIdHere cols i = false → scanNext cols i = i + 1) ∧
    (∀ fuel, i < cols.length →
      extractLoop cols (fuel + 1) i =
        (if itemIdHere cols i && groupLabelsOk cols i then [groupEntry cols i]
         else []) ++ extractLoop cols fuel (scanNext cols i)) := by
  refine ⟨fun h => ?_, fun h => ?_, fun fuel h => ?_⟩
  · simp [scanNext, h]
  · simp [scanNext, h]
  · simp [extractLoop, h]

/-- C4_witness: the advancement rules instantiated on a concrete header
list (a matching group at position 0, a non-`ItemID` column at 1). -/
theorem C4_scan_witness :
    scanNext ["ItemID", "ItemType", "Q", "EarnedPoints", "Status"] 0 = 5 ∧
    scanNext ["ItemID", "ItemType", "Q", "EarnedPoints", "Status"] 1 = 2 ∧
    extractLoop ["ItemID", "ItemType", "Q", "EarnedPoints", "Status"] 5 0 =
      [(4, ⟨"Q", 1, 2, 3, 4⟩)] ++
        extractLoop ["ItemID", "ItemType", "Q", "EarnedPoints", "Status"] 4 5 := by
  refine ⟨(C4_scan_advances_by_five_even_on_label_mismatch _ 0).1 (by decide),
    (C4_scan_advances_by_five_even_on_label_mismatch _ 1).2.1 (by decide), ?_⟩
  have h := (C4_scan_advances_by_five_even_on_label_mismatch
    ["ItemID", "ItemType", "Q", "EarnedPoints", "Status"] 0).2.2 4 (by decide)
  simpa using h

/-- C4_counterexample: the claim asserts that after an `ItemID` column is
found, a mismatch of the tested labels makes the scan pointer advance
by 1; the code advances it by 5.  At position 0 of these headers the
`ItemID` test succeeds, the label test fails, and the pointer jumps to 5
(the claim's rule `claimScanNext` says 1).  Consequently the well-formed
group starting at position 2 is never registered. -/
theorem C4_counterexample :
    itemIdHere ["ItemID", "X", "ItemID.1", "ItemType", "Q2",
      "EarnedPoints", "Status"] 0 = true ∧
    groupLabelsOk ["ItemID", "X", "ItemID.1", "ItemType", "Q2",
      "EarnedPoints", "Status"] 0 = false ∧
    scanNext ["ItemID", "X", "ItemID.1", "ItemType", "Q2",
      "EarnedPoints", "Status"] 0 = 5 ∧
    claimScanNext ["ItemID", "X", "ItemID.1", "ItemType", "Q2",
      "EarnedPoints", "Status"] 0 = 1 ∧
    itemIdHere ["ItemID", "X", "ItemID.1", "ItemType", "Q2",
      "EarnedPoints", "Status"] 2 = true ∧
    groupLabelsOk ["ItemID", "X", "ItemID.1", "ItemType", "Q2",
      "EarnedPoints", "Status"] 2 = true ∧
    extract_questions ["ItemID", "X", "ItemID.1", "ItemType", "Q2",
      "EarnedPoints", "Status"] = [] := by
  decide

/-- C5: an equation image with a non-empty `data-equation-content`
attribute converts to that content wrapped in inline-math delimiters
unless it already starts with one (`"x^2"` gives `"$x^2$"`); with that
attribute absent/empty but a `title` set, the title is used identically;
with neither, the conversion is empty and its contribution to the text
is just the two word-boundary spaces, never an image artifact. -/
theorem C5_equation_image_extraction (t v : String) :
    (∀ d : String, d ≠ "" →
      convert_equation_image ⟨d, t⟩ =
        (if startsWithS d "$" = false then "$" ++ d ++ "$" else d)) ∧
    convert_equation_image ⟨"x^2", t⟩ = "$x^2$" ∧
    (v ≠ "" →
      convert_equation_image ⟨"", v⟩ =
        (if startsWithS v "$" = false then "$" ++ v ++ "$" else v)) ∧
    convert_equation_image ⟨"", ""⟩ = "" ∧
    equationContribution ⟨"", ""⟩ = "  " := by
  have h1 : ∀ d : String, d ≠ "" →
      convert_equation_image ⟨d, t⟩ =
        (if startsWithS d "$" = false then "$" ++ d ++ "$" else d) := by
    intro d hd
    simp [convert_equation_image, hd]
  refine ⟨h1, ?_, fun hv => ?_, rfl, rfl⟩
  · rw [h1 "x^2" (by decide)]
    decide
  · simp [convert_equation_image, hv]

/-- C5_witness: the equation-image rules at concrete attribute values,
including an already-delimited content and a title fallback. -/
theorem C5_equation_image_witness :
    convert_equation_image ⟨"x^2", "ignored"⟩ = "$x^2$" ∧
    convert_equation_image ⟨"$y$", ""⟩ = "$y$" ∧
    convert_equation_image ⟨"", "a+b"⟩ = "$a+b$" ∧
    equationContribution ⟨"", ""⟩ = "  " := by
  have h1 := (C5_equation_image_extraction "ignored" "a+b").1 "x^2" (by decide)
  have h2 := (C5_equation_image_extraction "" "a+b").1 "$y$" (by decide)
  have h3 := (C5_equation_image_extraction "" "a+b").2.2.1 (by decide)
  have h4 := (C5_equation_image_extraction "" "a+b").2.2.2.2
  refine ⟨by simpa using h1, by simpa using h2, by simpa using h3, h4⟩

/-- C6: the plain input `"1. Do A. 2. Do B. 3. Do C."` converts to
exactly three lines beginning `1.`, `2.`, `3.`, each on its own line;
and for a numbered pattern that does not start the text (second input)
a line break is inserted before every occurrence, in particular before
each occurrence past the first. -/
theorem C6_numbered_line_reconstruction (soup : String → String) :
    html_to_latex soup (some "1. Do A. 2. Do B. 3. Do C.") false =
      "1. Do A. \n2. Do B. \n3. Do C." ∧
    splitNl ("1. Do A. \n2. Do B. \n3. Do C.").data =
      ["1. Do A. ".data, "2. Do B. ".data, "3. Do C.".data] ∧
    ("1.".data.isPrefixOf "1. Do A. ".data &&
      "2.".data.isPrefixOf "2. Do B. ".data &&
      "3.".data.isPrefixOf "3. Do C.".data) = true ∧
    html_to_latex soup (some "See 1. A. 2. B.") false = "See \n1. A. \n2. B." := by
  refine ⟨rfl, by decide, by decide, rfl⟩

theorem mathMatchLen_some_caret {l : List Char} {n : Nat}
    (h : mathMatchLen l = some n) : '^' ∈ l := by
  simp only [mathMatchLen] at h
  split at h
  · rename_i rest
    split at h
    · rename_i hcond
      have hmem : '^' ∈ rest.takeWhile (fun c => c ≠ ')') :=
        List.elem_iff.mp (Bool.and_elim_right hcond)
      exact List.mem_cons_of_mem _ ((List.takeWhile_sublist _).subset hmem)
    · exact absurd h (by simp)
  · rename_i c rest
    split at h
    · exact List.mem_cons_of_mem _ (List.mem_cons_self _ _)
    · exact absurd h (by simp)
  · exact absurd h (by simp)

theorem mathSubAux_no_caret : ∀ (fuel : Nat) (l : List Char), '^' ∉ l →
    mathSubAux fuel l = l
  | 0, _, _ => rfl
  | _ + 1, [], _ => rfl
  | fuel + 1, c :: rest, h => by
    cases hm : mathMatchLen (c :: rest) with
    | some n => exact absurd (mathMatchLen_some_caret hm) h
    | none =>
      simp only [mathSubAux, hm]
      exact congrArg _ (mathSubAux_no_caret fuel rest
        (fun hmem => h (List.mem_cons_of_mem _ hmem)))

/-- C7 (amended): the exponent pass wraps every matched bare
exponent-style expression in inline-math delimiters in a single
non-overlapping pass, and does nothing to text without `'^'` — but it
does not respect existing math delimiters: the regex never matches a
leading `'$'`, so the already-in-math guard of the callback never fires
and an exponent inside an existing math span is wrapped again, doubling
the delimiters. -/
theorem C7_math_pass_wraps_exponents :
    htmlPostProcess "x^2" = "$x^2$" ∧
    htmlPostProcess "(b^k/2)^2" = "$(b^k/2)^\x7b2\x7d$" ∧
    htmlPostProcess "see x^2 here" = "see $x^2$ here" ∧
    htmlPostProcess "$x^2$" = "$$x^2$$" ∧
    (∀ l : List Char, '^' ∉ l → mathSub l = l) := by
  refine ⟨rfl, rfl, rfl, rfl, fun l h => mathSubAux_no_caret l.length l h⟩

/-- C7_witness: the no-caret clause of the exponent-pass theorem applied
to a concrete string. -/
theorem C7_math_pass_witness : mathSub "plain text".data = "plain text".data :=
  C7_math_pass_wraps_exponents.2.2.2.2 "plain text".data (by decide)

/-- C7_counterexample: the claim says an expression already inside a math
span is left untouched and the output never contains nested math
delimiters; on the extracted text `"$x^2$"` the pass rewrites the inner
`x^2` to `$x^2$`, producing `"$$x^2$$"` — doubled delimiters, not an
untouched span. -/
theorem C7_counterexample :
    htmlPostProcess "$x^2$" = "$$x^2$$" ∧
    mathSub "$x^2$".data = "$$x^2$$".data ∧
    ("$$x^2$$" : String) ≠ "$x^2$" := by
  refine ⟨rfl, by decide, by decide⟩

/-- C10 (amended): a row cap of 0 behaves exactly like passing no cap
(all rows are processed, because `0` is falsy in `if limit`); a positive
cap `n` keeps the first `n` rows; but a negative cap also restricts — it
keeps all rows except the last `|n|`, per `DataFrame.head`'s negative
semantics. -/
theorem C10_zero_cap_processes_all_rows (qs : List QInfo) (rows : List Row) :
    get_student_data qs rows (some 0) = get_student_data qs rows none ∧
    (∀ n : Int, 0 < n → rowsToProcess rows (some n) = rows.take n.toNat) ∧
    (∀ n : Int, n < 0 →
      rowsToProcess rows (some n) = rows.take (rows.length - (-n).toNat)) := by
  refine ⟨rfl, fun n hn => ?_, fun n hn => ?_⟩
  · have h0 : ¬ n = 0 := by omega
    simp [rowsToProcess, pdHead, h0, Int.le_of_lt hn]
  · have h0 : ¬ n = 0 := by omega
    have h1 : ¬ (0 ≤ n) := by omega
    simp [rowsToProcess, pdHead, h0, h1]

/-- C10_witness: the cap rules instantiated at caps 0, 2 and -1 on a
two-row table. -/
theorem C10_cap_witness :
    get_student_data [⟨"Q1", 0, 1, 2, 3⟩]
        [⟨"A", "1", [some "essay", some "ans", some "1.0", some "Graded"]⟩,
         ⟨"B", "2", [some "essay", some "ans", some "1.0", some "Graded"]⟩]
        (some 0) =
      get_student_data [⟨"Q1", 0, 1, 2, 3⟩]
        [⟨"A", "1", [some "essay", some "ans", some "1.0", some "Graded"]⟩,
         ⟨"B", "2", [some "essay", some "ans", some "1.0", some "Graded"]⟩]
        none ∧
    rowsToProcess
        [⟨"A", "1", [some "essay", some "ans", some "1.0", some "Graded"]⟩,
         ⟨"B", "2", [some "essay", some "ans", some "1.0", some "Graded"]⟩]
        (some 2) =
      List.take 2
        [⟨"A", "1", [some "essay", some "ans", some "1.0", some "Graded"]⟩,
         ⟨"B", "2", [some "essay", some "ans", some "1.0", some "Graded"]⟩] ∧
    rowsToProcess
        [⟨"A", "1", [some "essay", some "ans", some "1.0", some "Graded"]⟩,
         ⟨"B", "2", [some "essay", some "ans", some "1.0", some "Graded"]⟩]
        (some (-1)) =
      List.take 1
        [⟨"A", "1", [some "essay", some "ans", some "1.0", some "Graded"]⟩,
         ⟨"B", "2", [some "essay", some "ans", some "1.0", some "Graded"]⟩] :=
  ⟨(C10_zero_cap_processes_all_rows [⟨"Q1", 0, 1, 2, 3⟩] _).1,
   (C10_zero_cap_processes_all_rows [⟨"Q1", 0, 1, 2, 3⟩] _).2.1 2 (by decide),
   (C10_zero_cap_processes_all_rows [⟨"Q1", 0, 1, 2, 3⟩] _).2.2 (-1) (by decide)⟩

/-- C10_counterexample: the claim says the cap restricts the processed
rows only when it is positive; the cap `-1` is not positive, yet on a
two-row table it drops the second row (`head(-1)` keeps all but the last
row), so the result differs from the uncapped run. -/
theorem C10_counterexample :
    get_student_data [⟨"Q1", 0, 1, 2, 3⟩]
        [⟨"A", "1", [some "essay", some "ans", some "1.0", some "Graded"]⟩,
         ⟨"B", "2", [some "essay", some "ans", some "1.0", some "Graded"]⟩]
        (some (-1)) = [⟨"A", "1", [⟨"Q1", "ans"⟩]⟩] ∧
    get_student_data [⟨"Q1", 0, 1, 2, 3⟩]
        [⟨"A", "1", [some "essay", some "ans", some "1.0", some "Graded"]⟩,
         ⟨"B", "2", [some "essay", some "ans", some "1.0", some "Graded"]⟩]
        none = [⟨"A", "1", [⟨"Q1", "ans"⟩]⟩, ⟨"B", "2", [⟨"Q1", "ans"⟩]⟩] ∧
    ¬ ((0 : Int) < -1) := by
  refine ⟨by decide, by decide, by decide⟩

/-- C3_counterexample: the converter is not idempotent on its own output:
`convert "a&b"` (answer context) yields `"a\&b"`, and converting that
output again re-escapes the ampersand, yielding `"a\\&b"` — a
double-escape, so `convert (convert x) ≠ convert x` at `x = "a&b"`. -/
theorem C3_counterexample :
    html_to_latex (fun t => t) (some "a&b") false = "a\\&b" ∧
    html_to_latex (fun t => t) (some "a\\&b") false = "a\\\\&b" ∧
    ("a\\\\&b" : String) ≠ "a\\&b" := by
  refine ⟨rfl, rfl, by decide⟩

/-- C2_counterexample: the input `"a~b"` contains no markup escape
sequence and no inline-math delimiter, yet the converter returns it
unchanged: the tilde is not replaced by the substitution table's
`\textasciitilde` entry (which contains no `'~'`), so an unescaped
occurrence of one of the ten listed characters remains in the output. -/
theorem C2_counterexample :
    html_to_latex (fun t => t) (some "a~b") false = "a~b" ∧
    '~' ∈ ("a~b" : String).data := by
  refine ⟨rfl, by decide⟩

/-- C9_counterexample: in question context, the plain input
`"a\n    b"` has a line starting with exactly four spaces; the claim
says those become a math-mode spacing command, but the space-collapsing
step has already reduced them to a single space, so the output
`"a\n\n b"` contains no `\quad` — indeed no backslash at all. -/
theorem C9_counterexample :
    html_to_latex (fun t => t) (some "a\n    b") true = "a\n\n b" ∧
    '\\' ∉ ("a\n\n b" : String).data := by
  refine ⟨rfl, by decide⟩

theorem hasSubstr_iff (pat : List Char) (l : List Char) :
    hasSubstr pat l = true ↔ ∃ a b, l = a ++ pat ++ b := by
  induction l with
  | nil =>
    simp only [hasSubstr, List.isEmpty_iff]
    constructor
    · rintro rfl
      exact ⟨[], [], rfl⟩
    · rintro ⟨a, b, hab⟩
      have := hab.symm
      simp only [List.append_eq_nil] at this
      exact this.1.2
  | cons c rest ih =>
    simp only [hasSubstr, Bool.or_eq_true, List.isPrefixOf_iff_prefix, ih]
    constructor
    · rintro (⟨t, ht⟩ | ⟨a, b, hab⟩)
      · exact ⟨[], t, by simp [← ht]⟩
      · exact ⟨c :: a, b, by simp [hab]⟩
    · rintro ⟨a, b, hab⟩
      cases a with
      | nil =>
        left
        exact ⟨b, by simpa using hab.symm⟩
      | cons x a' =>
        right
        simp only [List.cons_append, List.cons.injEq] at hab
        exact ⟨a', b, hab.2⟩

theorem mem_takeWhile_iff_exists (p : Char → Bool) (y : Char)
    (hy : p y = true) (rest : List Char) :
    y ∈ rest.takeWhile p ↔
      ∃ mid b, rest = mid ++ y :: b ∧ ∀ x ∈ mid, p x = true := by
  constructor
  · intro hm
    obtain ⟨m1, m2, hsplit⟩ := List.append_of_mem hm
    refine ⟨m1, m2 ++ rest.dropWhile p, ?_, ?_⟩
    · conv_lhs => rw [← List.takeWhile_append_dropWhile p rest]
      rw [hsplit]
      simp
    · intro x hx
      exact List.mem_takeWhile_imp (hsplit ▸ List.mem_append_left _ hx)
  · rintro ⟨mid, b, rfl, hmid⟩
    induction mid with
    | nil => simp [List.takeWhile_cons, hy]
    | cons m mid' ihm =>
      have hm : p m = true := hmid m (List.mem_cons_self _ _)
      simp only [List.cons_append, List.takeWhile_cons, hm, if_true]
      exact List.mem_cons_of_mem _ (ihm (fun x hx => hmid x (List.mem_cons_of_mem _ hx)))

theorem arrayCueAt_iff (l : List Char) :
    arrayCueAt l = true ↔
      ∃ c mid b, l = c :: '[' :: (mid ++ ']' :: b) ∧
        ('A' ≤ c ∧ c ≤ 'Z') ∧ '\n' ∉ mid := by
  constructor
  · intro h
    unfold arrayCueAt at h
    split at h
    · rename_i c rest
      simp only [Bool.and_eq_true, decide_eq_true_eq] at h
      have hmem : ']' ∈ rest.takeWhile (fun x => x ≠ '\n') :=
        List.elem_iff.mp h.2
      obtain ⟨mid, b, rfl, hmid⟩ :=
        (mem_takeWhile_iff_exists (fun x => x ≠ '\n') ']' (by decide) rest).mp hmem
      refine ⟨c, mid, b, rfl, h.1, fun hn => ?_⟩
      simpa using hmid '\n' hn
    · exact absurd h (by simp)
  · rintro ⟨c, mid, b, rfl, hc, hmid⟩
    have hmem : ']' ∈ (mid ++ ']' :: b).takeWhile (fun x => x ≠ '\n') :=
      (mem_takeWhile_iff_exists (fun x => x ≠ '\n') ']' (by decide) _).mpr
        ⟨mid, b, rfl, fun x hx => by
          simp only [decide_eq_true_eq]
          rintro rfl
          exact hmid hx⟩
    unfold arrayCueAt
    simp only [Bool.and_eq_true, decide_eq_true_eq]
    exact ⟨hc, List.elem_iff.mpr hmem⟩

theorem arrayCue_iff (l : List Char) :
    arrayCue l = true ↔
      ∃ a c mid b, l = a ++ c :: '[' :: (mid ++ ']' :: b) ∧
        ('A' ≤ c ∧ c ≤ 'Z') ∧ '\n' ∉ mid := by
  induction l with
  | nil =>
    simp only [arrayCue]
    constructor
    · intro h
      exact absurd h (by simp)
    · rintro ⟨a, c, mid, b, hab, _⟩
      exact absurd hab.symm (by simp)
  | cons x rest ih =>
    simp only [arrayCue, Bool.or_eq_true, ih, arrayCueAt_iff]
    constructor
    · rintro (⟨c, mid, b, hdec, hc, hmid⟩ | ⟨a, c, mid, b, hdec, hc, hmid⟩)
      · exact ⟨[], c, mid, b, by simp [hdec], hc, hmid⟩
      · exact ⟨x :: a, c, mid, b, by simp [hdec], hc, hmid⟩
    · rintro ⟨a, c, mid, b, hdec, hc, hmid⟩
      cases a with
      | nil =>
        left
        simp only [List.nil_append, List.cons.injEq] at hdec
        exact ⟨c, mid, b, by simp [hdec.1, hdec.2], hc, hmid⟩
      | cons y a' =>
        right
        simp only [List.cons_append, List.cons.injEq] at hdec
        exact ⟨a', c, mid, b, hdec.2, hc, hmid⟩

/-- C8: the converted answer is wrapped in the small-font block with an
explicit line break per source line iff it contains a line break AND
matches a code-like cue — one of the eight control-flow/IO keywords as a
substring, or array-index notation (a capital letter, `'['`, then `']'`
with no newline between).  Otherwise, if it has no line break and is
longer than 200 characters, sentence-boundary breaks are inserted; in
every remaining case the answer passes through unchanged. -/
theorem C8_answer_classification (t : List Char) :
    (answer_looks_like_code t = true ↔
      ('\n' ∈ t ∧
        ((∃ kw ∈ codeKeywords, ∃ a b, t = a ++ kw.data ++ b) ∨
          (∃ a c mid b, t = a ++ c :: '[' :: (mid ++ ']' :: b) ∧
            ('A' ≤ c ∧ c ≤ 'Z') ∧ '\n' ∉ mid)))) ∧
    (answer_looks_like_code t = true →
      answerSection t = smallWrap (replaceChar '\n' lineBreakRep (blankLineSub t))) ∧
    (answer_looks_like_code t = false → t.contains '\n' = false →
      200 < t.length → answerSection t = sentenceSub t) ∧
    (answer_looks_like_code t = false → ('\n' ∈ t ∨ t.length ≤ 200) →
      answerSection t = t) := by
  refine ⟨?_, fun h => ?_, fun h1 h2 h3 => ?_, fun h1 h2 => ?_⟩
  · simp only [answer_looks_like_code, Bool.and_eq_true, Bool.or_eq_true,
      List.elem_iff, codeKeywordCue, List.any_eq_true, hasSubstr_iff,
      arrayCue_iff]
  · simp [answerSection, h]
  · have hcond : (!t.contains '\n' && decide (t.length > 200)) = true := by
      rw [h2]
      simpa using h3
    simp only [answerSection, h1, Bool.false_eq_true, if_false, hcond, if_true]
  · have hcond : (!t.contains '\n' && decide (t.length > 200)) = false := by
      rcases h2 with hnl | hlen
      · rw [show t.contains '\n' = true from List.elem_iff.mpr hnl]
        rfl
      · have : decide (t.length > 200) = false := by
          simp
          omega
        rw [this, Bool.and_false]
    simp only [answerSection, h1, Bool.false_eq_true, if_false, hcond]

/-- C8_witness: the classification at three concrete answers: a
keyword-cued multi-line answer becomes a small-font block; a short prose
answer passes through unchanged; a multi-line answer with no cue also
passes through unchanged. -/
theorem C8_answer_classification_witness :
    answerSection "while x:\nA".data =
      smallWrap (replaceChar '\n' lineBreakRep (blankLineSub "while x:\nA".data)) ∧
    answerSection "a short answer".data = "a short answer".data ∧
    answerSection "no cue\nhere".data = "no cue\nhere".data :=
  ⟨(C8_answer_classification "while x:\nA".data).2.1 (by decide),
   (C8_answer_classification "a short answer".data).2.2.2 (by decide)
     (Or.inr (by decide)),
   (C8_answer_classification "no cue\nhere".data).2.2.2 (by decide)
     (Or.inl (by decide))⟩

theorem contains_eq_false_iff (l : List Char) (c : Char) :
    l.contains c = false ↔ c ∉ l := by
  constructor
  · intro h hm
    have hc : l.contains c = true := List.elem_iff.mpr hm
    rw [hc] at h
    cases h
  · intro h
    cases hc : l.contains c with
    | false => rfl
    | true => exact absurd (List.elem_iff.mp hc) h

theorem replaceChar_append (c : Char) (rep a b : List Char) :
    replaceChar c rep (a ++ b) = replaceChar c rep a ++ replaceChar c rep b := by
  induction a with
  | nil => rfl
  | cons x a' ih => simp [replaceChar, ih]

theorem mem_replaceChar {x c : Char} {rep l : List Char}
    (h : x ∈ replaceChar c rep l) : x ∈ rep ∨ x ∈ l := by
  induction l with
  | nil => exact absurd h (by simp [replaceChar])
  | cons y l' ih =>
    simp only [replaceChar, List.mem_append] at h
    rcases h with h | h
    · by_cases hy : y = c
      · rw [if_pos hy] at h
        exact Or.inl h
      · rw [if_neg hy] at h
        simp only [List.mem_singleton] at h
        exact Or.inr (h ▸ List.mem_cons_self _ _)
    · rcases ih h with h' | h'
      · exact Or.inl h'
      · exact Or.inr (List.mem_cons_of_mem _ h')

theorem replaceChar_of_not_mem {c : Char} {rep l : List Char}
    (h : c ∉ l) : replaceChar c rep l = l := by
  induction l with
  | nil => rfl
  | cons y l' ih =>
    have hy : ¬ y = c := fun hyc => h (hyc ▸ List.mem_cons_self _ _)
    simp [replaceChar, hy, ih (fun hm => h (List.mem_cons_of_mem _ hm))]

theorem replaceChar_head? (c : Char) {rep : List Char} (hrep : rep ≠ [])
    (l : List Char) :
    (replaceChar c rep l).head? =
      match l.head? with
      | none => none
      | some x => if x = c then rep.head? else some x := by
  cases l with
  | nil => rfl
  | cons x l' =>
    cases rep with
    | nil => exact absurd rfl hrep
    | cons r rs => by_cases hx : x = c <;> simp [replaceChar, hx]

theorem mem_collapseSpaces {x : Char} {l : List Char}
    (h : x ∈ collapseSpaces l) : x ∈ l := by
  induction l using collapseSpaces.induct with
  | case1 rest ih =>
    rw [collapseSpaces.eq_1] at h
    exact List.mem_cons_of_mem _ (ih h)
  | case2 c rest hne ih =>
    rw [collapseSpaces.eq_2 c rest hne] at h
    rcases List.mem_cons.mp h with h' | h'
    · exact h' ▸ List.mem_cons_self _ _
    · exact List.mem_cons_of_mem _ (ih h')
  | case3 =>
    rw [collapseSpaces.eq_3] at h
    exact absurd h (List.not_mem_nil x)

theorem collapseSpaces_head? (l : List Char) :
    (collapseSpaces l).head? = l.head? := by
  induction l using collapseSpaces.induct with
  | case1 rest ih => rw [collapseSpaces.eq_1]; simpa using ih
  | case2 c rest hne ih => rw [collapseSpaces.eq_2 c rest hne]; rfl
  | case3 => rfl

theorem noTwoSpaces_cons2 (c d : Char) (l : List Char) :
    noTwoSpaces (c :: d :: l) = (!(c = ' ' && d = ' ') && noTwoSpaces (d :: l)) :=
  rfl

theorem noTwoSpaces_tail {c : Char} {l : List Char}
    (h : noTwoSpaces (c :: l) = true) : noTwoSpaces l = true := by
  cases l with
  | nil => rfl
  | cons d l' =>
    rw [noTwoSpaces_cons2, Bool.and_eq_true] at h
    exact h.2

theorem noTwoSpaces_collapseSpaces (l : List Char) :
    noTwoSpaces (collapseSpaces l) = true := by
  induction l using collapseSpaces.induct with
  | case1 rest ih => rw [collapseSpaces.eq_1]; exact ih
  | case2 c rest hne ih =>
    rw [collapseSpaces.eq_2 c rest hne]
    cases hcs : collapseSpaces rest with
    | nil => rfl
    | cons x xs =>
      have hx : rest.head? = some x := by
        rw [← collapseSpaces_head?, hcs]; rfl
      rw [noTwoSpaces_cons2, Bool.and_eq_true]
      refine ⟨?_, hcs ▸ ih⟩
      by_cases hc : c = ' '
      · subst hc
        cases rest with
        | nil => simp at hx
        | cons y ys =>
          simp only [List.head?_cons, Option.some.injEq] at hx
          by_cases hy : x = ' '
          · exact (hne ys rfl (by rw [hx.trans hy])).elim
          · simp [hy]
      · simp [hc]
  | case3 => rfl

theorem collapseSpaces_of_noTwoSpaces {l : List Char}
    (h : noTwoSpaces l = true) : collapseSpaces l = l := by
  induction l using collapseSpaces.induct with
  | case1 rest ih =>
    rw [noTwoSpaces_cons2] at h
    simp at h
  | case2 c rest hne ih =>
    rw [collapseSpaces.eq_2 c rest hne, ih (noTwoSpaces_tail h)]
  | case3 => rfl

theorem pyStrip_infixOf (l : List Char) : pyStrip l <:+: l := by
  unfold pyStrip
  have h1 : l.dropWhile isPyWs <:+ l := List.dropWhile_suffix _
  have h0 : (l.dropWhile isPyWs).reverse.dropWhile isPyWs <:+
      (l.dropWhile isPyWs).reverse := List.dropWhile_suffix _
  have h2 : ((l.dropWhile isPyWs).reverse.dropWhile isPyWs).reverse <+:
      l.dropWhile isPyWs := by
    rw [← List.reverse_suffix]
    simpa using h0
  exact h2.isInfix.trans h1.isInfix

theorem mem_pyStrip {x : Char} {l : List Char} (h : x ∈ pyStrip l) : x ∈ l :=
  (pyStrip_infixOf l).subset h

theorem noTwoSpaces_append (a b : List Char) :
    noTwoSpaces (a ++ b) = true ↔
      noTwoSpaces a = true ∧ noTwoSpaces b = true ∧
        ¬(a.getLast? = some ' ' ∧ b.head? = some ' ') := by
  induction a with
  | nil => simp [noTwoSpaces]
  | cons x a' ih =>
    cases a' with
    | nil =>
      cases b with
      | nil => simp [noTwoSpaces]
      | cons y b' =>
        rw [List.singleton_append, noTwoSpaces_cons2]
        simp only [Bool.and_eq_true, Bool.not_eq_eq_eq_not, Bool.not_true,
          Bool.and_eq_false_iff, decide_eq_false_iff_not, List.getLast?_singleton,
          List.head?_cons, Option.some.injEq, noTwoSpaces]
        constructor
        · rintro ⟨h1, h2⟩
          refine ⟨trivial, h2, ?_⟩
          rintro ⟨rfl, rfl⟩
          rcases h1 with h1 | h1 <;> exact h1 rfl
        · rintro ⟨-, h2, h3⟩
          refine ⟨?_, h2⟩
          by_cases hx : x = ' '
          · right
            intro hy
            exact h3 ⟨hx, hy⟩
          · left
            exact hx
    | cons x2 a'' =>
      rw [show x :: x2 :: a'' ++ b = x :: x2 :: (a'' ++ b) from rfl,
        noTwoSpaces_cons2 x x2 (a'' ++ b), noTwoSpaces_cons2 x x2 a'',
        List.getLast?_cons_cons]
      simp only [Bool.and_eq_true]
      rw [← List.cons_append x2 a'' b, ih]
      tauto

theorem noTwoSpaces_infixOf {a l : List Char} (h : a <:+: l)
    (hl : noTwoSpaces l = true) : noTwoSpaces a = true := by
  obtain ⟨pre, post, rfl⟩ := h
  rw [List.append_assoc] at hl
  have h1 := (noTwoSpaces_append pre (a ++ post)).mp hl
  exact ((noTwoSpaces_append a post).mp h1.2.1).1

theorem drop_length_takeWhile (p : Char → Bool) (l : List Char) :
    l.drop (l.takeWhile p).length = l.dropWhile p := by
  induction l with
  | nil => rfl
  | cons c rest ih =>
    by_cases h : p c <;> simp [List.takeWhile_cons, List.dropWhile_cons, h, ih]

theorem head?_dropWhile {p : Char → Bool} {l : List Char} {x : Char}
    (h : (l.dropWhile p).head? = some x) : p x = false := by
  induction l with
  | nil => cases h
  | cons c rest ih =>
    by_cases hc : p c
    · rw [List.dropWhile_cons, if_pos hc] at h
      exact ih h
    · rw [List.dropWhile_cons, if_neg hc] at h
      simp only [List.head?_cons, Option.some.injEq] at h
      rw [← h]
      exact Bool.of_not_eq_true hc

theorem numberedMatchLen_spec {l : List Char} {n : Nat}
    (h : numberedMatchLen l = some n) :
    ∀ x, (l.drop n).head? = some x → isPyWs x = false := by
  intro x hx
  simp only [numberedMatchLen] at h
  split at h
  · cases h
  · split at h
    · rename_i rest heq
      split at h
      · cases h
      · rename_i hws
        have hn : n = (l.takeWhile isPyDigit).length + 1 +
            (rest.takeWhile isPyWs).length := (Option.some.injEq _ _ ▸ h).symm
        have hd1 : l.drop ((l.takeWhile isPyDigit).length + 1) = rest := by
          rw [← List.drop_drop, heq]
          rfl
        have hd2 : l.drop n = rest.dropWhile isPyWs := by
          rw [hn, ← List.drop_drop, hd1, drop_length_takeWhile]
        rw [hd2] at hx
        exact head?_dropWhile hx
    · cases h

theorem mem_numberedSubAux : ∀ (fuel : Nat) (l : List Char) {x : Char},
    x ∈ numberedSubAux fuel l → x = '\n' ∨ x ∈ l
  | 0, _, _, h => Or.inr h
  | _ + 1, [], x, h => absurd h (List.not_mem_nil x)
  | fuel + 1, c :: rest, x, h => by
    cases hm : numberedMatchLen (c :: rest) with
    | some n =>
      simp only [numberedSubAux, hm] at h
      rcases List.mem_cons.mp h with h | h
      · exact Or.inl h
      · rcases List.mem_append.mp h with h | h
        · exact Or.inr (List.take_subset n _ h)
        · rcases mem_numberedSubAux fuel _ h with h' | h'
          · exact Or.inl h'
          · exact Or.inr (List.drop_subset n _ h')
    | none =>
      simp only [numberedSubAux, hm] at h
      rcases List.mem_cons.mp h with h | h
      · exact Or.inr (h ▸ List.mem_cons_self _ _)
      · rcases mem_numberedSubAux fuel rest h with h' | h'
        · exact Or.inl h'
        · exact Or.inr (List.mem_cons_of_mem _ h')

theorem numberedSubAux_head? (fuel : Nat) (l : List Char) :
    (numberedSubAux fuel l).head? = some '\n' ∨
      (numberedSubAux fuel l).head? = l.head? := by
  cases fuel with
  | zero => exact Or.inr rfl
  | succ fuel =>
    cases l with
    | nil => exact Or.inr rfl
    | cons c rest =>
      cases hm : numberedMatchLen (c :: rest) with
      | some n => simp [numberedSubAux, hm]
      | none => simp [numberedSubAux, hm]

theorem noTwoSpaces_numberedSubAux : ∀ (fuel : Nat) (l : List Char),
    noTwoSpaces l = true → noTwoSpaces (numberedSubAux fuel l) = true
  | 0, _, h => h
  | _ + 1, [], _ => rfl
  | fuel + 1, c :: rest, h => by
    cases hm : numberedMatchLen (c :: rest) with
    | none =>
      simp only [numberedSubAux, hm]
      rcases hX : numberedSubAux fuel rest with _ | ⟨y, ys⟩
      · rfl
      · rw [noTwoSpaces_cons2, Bool.and_eq_true]
        refine ⟨?_, hX ▸ noTwoSpaces_numberedSubAux fuel rest (noTwoSpaces_tail h)⟩
        rcases numberedSubAux_head? fuel rest with hh | hh
        · rw [hX] at hh
          simp only [List.head?_cons, Option.some.injEq] at hh
          rw [hh]
          simp
        · rw [hX] at hh
          cases rest with
          | nil => cases hh
          | cons z zs =>
            simp only [List.head?_cons, Option.some.injEq] at hh
            rw [hh]
            rw [noTwoSpaces_cons2, Bool.and_eq_true] at h
            exact h.1
    | some n =>
      simp only [numberedSubAux, hm]
      have htake : noTwoSpaces ((c :: rest).take n) = true :=
        noTwoSpaces_infixOf ⟨[], (c :: rest).drop n, by simp⟩ h
      have hdrop : noTwoSpaces ((c :: rest).drop n) = true :=
        noTwoSpaces_infixOf ⟨(c :: rest).take n, [], by simp⟩ h
      have hrec := noTwoSpaces_numberedSubAux fuel _ hdrop
      have hbound : ¬(((c :: rest).take n).getLast? = some ' ' ∧
          (numberedSubAux fuel ((c :: rest).drop n)).head? = some ' ') := by
        rintro ⟨-, h2⟩
        rcases numberedSubAux_head? fuel ((c :: rest).drop n) with hh | hh
        · rw [h2] at hh
          cases hh
        · rw [h2] at hh
          have := numberedMatchLen_spec hm ' ' hh.symm
          simp [isPyWs] at this
      have hcat := (noTwoSpaces_append _ _).mpr ⟨htake, hrec, hbound⟩
      rcases hc2 : ((c :: rest).take n ++ numberedSubAux fuel ((c :: rest).drop n))
        with _ | ⟨y, ys⟩
      · rfl
      · rw [noTwoSpaces_cons2, Bool.and_eq_true]
        exact ⟨by simp, hc2 ▸ hcat⟩

theorem mem_unicodeSpaces {x : Char} {l : List Char}
    (h : x ∈ unicodeSpaces l) : x = ' ' ∨ x ∈ l := by
  unfold unicodeSpaces at h
  rcases mem_replaceChar h with h' | h'
  · exact Or.inl (List.mem_singleton.mp h')
  · rcases mem_replaceChar h' with h'' | h''
    · exact Or.inl (List.mem_singleton.mp h'')
    · rcases mem_replaceChar h'' with h3 | h3
      · exact Or.inl (List.mem_singleton.mp h3)
      · exact Or.inr h3

theorem mem_preEscape {x : Char} {s : String} (h : x ∈ preEscape s) :
    x ∈ s.data ∨ x = ' ' ∨ x = '\n' := by
  simp only [preEscape] at h
  have step : ∀ y : Char,
      y ∈ collapseSpaces (unicodeSpaces (pyStrip s.data)) →
        y ∈ s.data ∨ y = ' ' := by
    intro y hy
    rcases mem_unicodeSpaces (mem_collapseSpaces hy) with h' | h'
    · exact Or.inr h'
    · exact Or.inl (mem_pyStrip h')
  split at h
  · rcases mem_numberedSubAux _ _ (mem_pyStrip h) with h' | h'
    · exact Or.inr (Or.inr h')
    · rcases step x h' with h'' | h''
      · exact Or.inl h''
      · exact Or.inr (Or.inl h'')
  · rcases step x h with h' | h'
    · exact Or.inl h'
    · exact Or.inr (Or.inl h')

theorem noTwoSpaces_preEscape (s : String) :
    noTwoSpaces (preEscape s) = true := by
  simp only [preEscape]
  split
  · exact noTwoSpaces_infixOf (pyStrip_infixOf _)
      (noTwoSpaces_numberedSubAux _ _ (noTwoSpaces_collapseSpaces _))
  · exact noTwoSpaces_collapseSpaces _

theorem noTwoSpaces_of_no_space {l : List Char} (h : ' ' ∉ l) :
    noTwoSpaces l = true := by
  induction l with
  | nil => rfl
  | cons c l' ih =>
    cases l' with
    | nil => rfl
    | cons d l'' =>
      rw [noTwoSpaces_cons2, Bool.and_eq_true]
      refine ⟨?_, ih (fun hm => h (List.mem_cons_of_mem _ hm))⟩
      have hc : ¬ c = ' ' := fun hc => h (hc ▸ List.mem_cons_self _ _)
      simp [hc]

theorem replaceChar_cons (c : Char) (rep : List Char) (x : Char) (l : List Char) :
    replaceChar c rep (x :: l) = (if x = c then rep else [x]) ++ replaceChar c rep l :=
  rfl

theorem noTwoSpaces_replaceChar {c : Char} {rep : List Char}
    (hrep : ' ' ∉ rep) (hne : rep ≠ []) :
    ∀ {l : List Char}, noTwoSpaces l = true →
      noTwoSpaces (replaceChar c rep l) = true := by
  intro l h
  induction l with
  | nil => rfl
  | cons x l' ih =>
    rw [replaceChar_cons]
    apply (noTwoSpaces_append _ _).mpr
    refine ⟨?_, ih (noTwoSpaces_tail h), ?_⟩
    · by_cases hx : x = c
      · rw [if_pos hx]
        exact noTwoSpaces_of_no_space hrep
      · rw [if_neg hx]
        rfl
    · rintro ⟨h1, h2⟩
      have hx' : x = ' ' := by
        by_cases hx : x = c
        · rw [if_pos hx] at h1
          exact absurd (List.mem_of_mem_getLast? h1) hrep
        · rw [if_neg hx] at h1
          simpa using h1
      have hl' : l'.head? = some ' ' := by
        rw [replaceChar_head? c hne l'] at h2
        cases hh : l'.head? with
        | none =>
          simp only [hh] at h2
          exact h2
        | some y =>
          simp only [hh] at h2
          by_cases hy : y = c
          · rw [if_pos hy] at h2
            exact absurd (List.mem_of_mem_head? h2) hrep
          · rw [if_neg hy] at h2
            exact h2
      cases l' with
      | nil => cases hl'
      | cons z zs =>
        simp only [List.head?_cons, Option.some.injEq] at hl'
        rw [hx', hl'] at h
        rw [noTwoSpaces_cons2] at h
        simp at h

theorem escape5_cons (x : Char) (l : List Char) :
    escape5 (x :: l) = escFive x ++ escape5 l := by
  by_cases h1 : x = '&'
  · subst h1
    simp [escape5, escFive, replaceChar_cons, replaceChar_append, replaceChar]
  by_cases h2 : x = '%'
  · subst h2
    simp [escape5, escFive, replaceChar_cons, replaceChar_append, replaceChar]
  by_cases h3 : x = '$'
  · subst h3
    simp [escape5, escFive, replaceChar_cons, replaceChar_append, replaceChar]
  by_cases h4 : x = '#'
  · subst h4
    simp [escape5, escFive, replaceChar_cons, replaceChar_append, replaceChar]
  by_cases h5 : x = '_'
  · subst h5
    simp [escape5, escFive, replaceChar_cons, replaceChar_append, replaceChar]
  simp [escape5, escFive, replaceChar_cons, replaceChar_append, replaceChar,
    h1, h2, h3, h4, h5]

theorem escapedPairOKAux_escape5 {l : List Char} (h : '\\' ∉ l) :
    ∀ prev : Char, escapedPairOKAux prev (escape5 l) = true := by
  induction l with
  | nil => intro prev; rfl
  | cons x l' ih =>
    intro prev
    have hx : x ≠ '\\' := fun hx => h (hx ▸ List.mem_cons_self _ _)
    have ih' := ih (fun hm => h (List.mem_cons_of_mem _ hm))
    rw [escape5_cons]
    by_cases h1 : x = '&'
    · subst h1
      simpa [escFive, escapedPairOKAux, specialFive] using ih' '&'
    by_cases h2 : x = '%'
    · subst h2
      simpa [escFive, escapedPairOKAux, specialFive] using ih' '%'
    by_cases h3 : x = '$'
    · subst h3
      simpa [escFive, escapedPairOKAux, specialFive] using ih' '$'
    by_cases h4 : x = '#'
    · subst h4
      simpa [escFive, escapedPairOKAux, specialFive] using ih' '#'
    by_cases h5 : x = '_'
    · subst h5
      simpa [escFive, escapedPairOKAux, specialFive] using ih' '_'
    have hs : specialFive x = false := by
      simp [specialFive, h1, h2, h3, h4, h5]
    simp only [escFive, if_neg h1, if_neg h2, if_neg h3, if_neg h4, if_neg h5,
      List.singleton_append, escapedPairOKAux, hs, Bool.not_false,
      Bool.true_or, Bool.true_and]
    exact ih' x

theorem splitNl_ne_nil (l : List Char) : splitNl l ≠ [] := by
  induction l using splitNl.induct with
  | case1 => simp [splitNl]
  | case2 rest ih => simp [splitNl]
  | case3 c rest hne line lines heq ih =>
    rw [splitNl.eq_3 c rest hne, heq]
    simp
  | case4 c rest hne heq ih =>
    rw [splitNl.eq_3 c rest hne, heq]
    simp

theorem splitNl_headD_prefix (l : List Char) : (splitNl l).headD [] <+: l := by
  induction l using splitNl.induct with
  | case1 => simp [splitNl]
  | case2 rest ih => simp [splitNl]
  | case3 c rest hne line lines heq ih =>
    rw [splitNl.eq_3 c rest hne, heq]
    rw [heq] at ih
    simp only [List.headD_cons] at ih ⊢
    exact List.cons_prefix_cons.mpr ⟨rfl, ih⟩
  | case4 c rest hne heq ih =>
    exact absurd heq (splitNl_ne_nil rest)

theorem splitNl_infixOf {l : List Char} :
    ∀ line ∈ splitNl l, line <:+: l := by
  induction l using splitNl.induct with
  | case1 =>
    intro line hline
    simp only [splitNl, List.mem_singleton] at hline
    simp [hline]
  | case2 rest ih =>
    intro line hline
    rw [splitNl.eq_2] at hline
    rcases List.mem_cons.mp hline with h | h
    · simp [h]
    · exact (ih line h).trans (List.infix_cons (List.infix_refl rest))
  | case3 c rest hne line0 lines0 heq ih =>
    intro line hline
    rw [splitNl.eq_3 c rest hne, heq] at hline
    rcases List.mem_cons.mp hline with h | h
    · subst h
      have hp : line0 <+: rest := by
        have := splitNl_headD_prefix rest
        rw [heq] at this
        simpa using this
      exact (List.cons_prefix_cons.mpr ⟨rfl, hp⟩).isInfix
    · exact (ih line (heq ▸ List.mem_cons_of_mem _ h)).trans
        (List.infix_cons (List.infix_refl rest))
  | case4 c rest hne heq ih =>
    exact absurd heq (splitNl_ne_nil rest)

theorem escapedPairOKAux_append (p : Char) (a b : List Char) :
    escapedPairOKAux p (a ++ b) =
      (escapedPairOKAux p a && escapedPairOKAux (a.getLastD p) b) := by
  induction a generalizing p with
  | nil => simp [escapedPairOKAux, List.getLastD]
  | cons x a' ih =>
    simp only [List.cons_append, escapedPairOKAux, List.getLastD_cons,
      Bool.and_assoc]
    rw [show List.append a' b = a' ++ b from rfl, ih x]

theorem splitNl_ok {l : List Char} {prev : Char}
    (h : escapedPairOKAux prev l = true) :
    escapedPairOKAux prev ((splitNl l).headD []) = true ∧
      ∀ line ∈ (splitNl l).tail, escapedPairOKAux '\n' line = true := by
  induction l generalizing prev with
  | nil => exact ⟨rfl, by simp [splitNl]⟩
  | cons c rest ih =>
    by_cases hc : c = '\n'
    · subst hc
      rw [escapedPairOKAux, Bool.and_eq_true] at h
      have ihr := ih h.2
      rw [splitNl.eq_2]
      refine ⟨rfl, ?_⟩
      intro line hline
      simp only [List.tail_cons] at hline
      cases hs : splitNl rest with
      | nil => exact absurd hs (splitNl_ne_nil rest)
      | cons line0 lines0 =>
        rw [hs] at ihr hline
        rcases List.mem_cons.mp hline with h' | h'
        · exact h' ▸ ihr.1
        · exact ihr.2 line h'
    · rw [escapedPairOKAux, Bool.and_eq_true] at h
      have ihr := ih h.2
      rw [splitNl.eq_3 c rest (fun h' => hc h')]
      cases hs : splitNl rest with
      | nil => exact absurd hs (splitNl_ne_nil rest)
      | cons line0 lines0 =>
        rw [hs] at ihr
        constructor
        · simp only [List.headD_cons]
          rw [escapedPairOKAux, Bool.and_eq_true]
          exact ⟨h.1, ihr.1⟩
        · intro line hline
          simp only [List.tail_cons] at hline
          exact ihr.2 line hline

theorem joinNlNl_ok : ∀ (lines : List (List Char)) (prev : Char),
    escapedPairOKAux prev (lines.headD []) = true →
    (∀ line ∈ lines.tail, escapedPairOKAux '\n' line = true) →
    escapedPairOKAux prev (joinNlNl lines) = true
  | [], prev, _, _ => rfl
  | [l], prev, h1, _ => by simpa [joinNlNl] using h1
  | l :: l2 :: ls, prev, h1, h2 => by
    rw [show joinNlNl (l :: l2 :: ls) = l ++ '\n' :: '\n' :: joinNlNl (l2 :: ls)
      from rfl]
    rw [escapedPairOKAux_append, Bool.and_eq_true]
    simp only [List.headD_cons] at h1
    refine ⟨h1, ?_⟩
    rw [escapedPairOKAux, escapedPairOKAux]
    have hs : specialFive '\n' = false := by decide
    rw [hs]
    simp only [Bool.not_false, Bool.true_or, Bool.true_and]
    apply joinNlNl_ok (l2 :: ls) '\n'
    · simp only [List.headD_cons]
      exact h2 l2 (List.mem_cons_self _ _)
    · intro line hline
      exact h2 line (List.mem_cons_of_mem _ (by simpa using hline))

theorem escapedPairOKAux_quadRep (p : Char) :
    escapedPairOKAux p quadRep = true := by
  have h1 : specialFive '\\' = false := by decide
  simp only [quadRep, escapedPairOKAux, h1, Bool.not_false, Bool.true_or,
    Bool.true_and]
  decide

theorem escapedPairOKAux_replaceQuad (l : List Char) :
    ∀ prev : Char, escapedPairOKAux prev l = true →
      escapedPairOKAux prev (replaceQuad quadRep l) = true := by
  induction l using replaceQuad.induct quadRep with
  | case1 rest ih =>
    intro prev h
    rw [show replaceQuad quadRep (' ' :: ' ' :: ' ' :: ' ' :: rest) =
      quadRep ++ replaceQuad quadRep rest from rfl]
    have hsp : specialFive ' ' = false := by decide
    simp only [escapedPairOKAux, hsp, Bool.not_false, Bool.true_or,
      Bool.true_and] at h
    rw [escapedPairOKAux_append, Bool.and_eq_true]
    refine ⟨escapedPairOKAux_quadRep prev, ?_⟩
    rw [show quadRep.getLastD prev = ' ' from rfl]
    exact ih ' ' h
  | case2 c rest hne ih =>
    intro prev h
    rw [replaceQuad.eq_2 quadRep c rest hne]
    rw [escapedPairOKAux, Bool.and_eq_true] at h ⊢
    exact ⟨h.1, ih c h.2⟩
  | case3 =>
    intro prev h
    exact h

theorem replaceQuad_of_noTwoSpaces (rep : List Char) (l : List Char) :
    noTwoSpaces l = true → replaceQuad rep l = l := by
  induction l using replaceQuad.induct rep with
  | case1 rest ih =>
    intro h
    rw [noTwoSpaces_cons2] at h
    simp at h
  | case2 c rest hne ih =>
    intro h
    rw [replaceQuad.eq_2 rep c rest hne, ih (noTwoSpaces_tail h)]
  | case3 =>
    intro h
    rfl

/-- C2 (amended): for every plain-text input (no markup-tag delimiter
`'<'`) containing no backslash and no dollar sign, in either context,
every occurrence of the five characters `& % $ # _` in the converter's
output is escaped with a preceding backslash per the substitution table,
and no unescaped occurrence of those five remains.  The remaining listed
characters `{ } ~ ^` are not escaped at all (see the counterexample). -/
theorem C2_five_specials_escaped (soup : String → String) (s : String)
    (q : Bool) (h1 : s.data.contains '<' = false)
    (h2 : '\\' ∉ s.data) (h3 : '$' ∉ s.data) :
    escapedPairOK (html_to_latex soup (some s) q).data = true := by
  by_cases hs : s = ""
  · subst hs
    rfl
  · simp only [html_to_latex]
    rw [if_neg hs, if_pos h1]
    show escapedPairOK (plainBranch s q) = true
    have hpre1 : '\\' ∉ preEscape s := by
      intro hm
      rcases mem_preEscape hm with h' | h' | h'
      · exact h2 h'
      · cases h'
      · cases h'
    have hpre2 : '$' ∉ preEscape s := by
      intro hm
      rcases mem_preEscape hm with h' | h' | h'
      · exact h3 h'
      · cases h'
      · cases h'
    have hpp : plainPipeline s = escape5 (preEscape s) := by
      unfold plainPipeline
      rw [(contains_eq_false_iff _ _).mpr hpre1,
        (contains_eq_false_iff _ _).mpr hpre2]
      simp
    have hok : escapedPairOK (plainPipeline s) = true := by
      rw [hpp]
      exact escapedPairOKAux_escape5 hpre1 ' '
    simp only [plainBranch]
    split
    · obtain ⟨hhead, htail⟩ := splitNl_ok hok
      cases hl : splitNl (plainPipeline s) with
      | nil => exact absurd hl (splitNl_ne_nil _)
      | cons line0 lines0 =>
        rw [hl] at hhead htail
        apply joinNlNl_ok
        · simp only [List.map_cons, List.headD_cons]
          exact escapedPairOKAux_replaceQuad line0 ' ' (by simpa using hhead)
        · intro line hline
          simp only [List.map_cons, List.tail_cons] at hline
          obtain ⟨x, hx, rfl⟩ := List.mem_map.mp hline
          exact escapedPairOKAux_replaceQuad x '\n' (htail x (by simpa using hx))
    · exact hok

/-- C2_witness: the escaping theorem applied to a concrete markup-free
input in question context. -/
theorem C2_five_specials_witness :
    escapedPairOK (html_to_latex (fun t => t) (some "a_b 100% & #1") true).data
      = true :=
  C2_five_specials_escaped (fun t => t) "a_b 100% & #1" true (by decide)
    (by decide) (by decide)

/-- C9 (amended): for a plain-text input in question context whose
pipeline text contains line breaks, the text is treated as an algorithm
block only in the sense that its lines are re-joined with blank-line
separators; the four-leading-space-to-`\quad` replacement of source line
122 can never fire, because the earlier space-collapsing step has already
reduced every space run to a single space — so every line is returned
unchanged by that replacement and all remaining spaces stay ordinary
single spaces. -/
theorem C9_quad_replacement_never_fires (soup : String → String) (s : String)
    (hs : s ≠ "") (h1 : s.data.contains '<' = false)
    (h2 : (plainPipeline s).contains '\n' = true) :
    html_to_latex soup (some s) true = ⟨joinNlNl (splitNl (plainPipeline s))⟩ ∧
    ∀ line ∈ splitNl (plainPipeline s), replaceQuad quadRep line = line := by
  have hnts : noTwoSpaces (plainPipeline s) = true := by
    unfold plainPipeline
    split
    · unfold escape3
      apply noTwoSpaces_replaceChar (by decide) (by decide)
      apply noTwoSpaces_replaceChar (by decide) (by decide)
      apply noTwoSpaces_replaceChar (by decide) (by decide)
      exact noTwoSpaces_preEscape s
    · unfold escape5
      apply noTwoSpaces_replaceChar (by decide) (by decide)
      apply noTwoSpaces_replaceChar (by decide) (by decide)
      apply noTwoSpaces_replaceChar (by decide) (by decide)
      apply noTwoSpaces_replaceChar (by decide) (by decide)
      apply noTwoSpaces_replaceChar (by decide) (by decide)
      exact noTwoSpaces_preEscape s
  have hlines : ∀ line ∈ splitNl (plainPipeline s),
      replaceQuad quadRep line = line := fun line hline =>
    replaceQuad_of_noTwoSpaces _ _
      (noTwoSpaces_infixOf (splitNl_infixOf line hline) hnts)
  refine ⟨?_, hlines⟩
  simp only [html_to_latex]
  rw [if_neg hs, if_pos h1]
  apply congrArg String.mk
  simp only [plainBranch, h2, Bool.and_self, if_true]
  rw [List.map_congr_left hlines, List.map_id']

/-- C9_witness: the no-`\quad` theorem applied to the concrete input
`"a\nb"`, whose question-context output is `"a\n\nb"`. -/
theorem C9_quad_replacement_witness :
    html_to_latex (fun t => t) (some "a\nb") true =
      ⟨joinNlNl (splitNl (plainPipeline "a\nb"))⟩ ∧
    html_to_latex (fun t => t) (some "a\nb") true = "a\n\nb" :=
  ⟨(C9_quad_replacement_never_fires (fun t => t) "a\nb" (by decide) (by decide)
      (by decide)).1,
   by rfl⟩

/-- C3 (amended): the converter is not idempotent on its own output in
general — re-converting re-escapes `&`, `%`, `#` (see the
counterexample).  It is the identity (hence idempotent) on strings free
of markup delimiters, escapable characters, math characters, line
breaks, Unicode or doubled spaces, the numbered-list pattern, and
surrounding whitespace, in either context. -/
theorem C3_identity_on_clean_strings (soup : String → String) (s : String)
    (q : Bool)
    (hlt : s.data.contains '<' = false)
    (hstrip : pyStrip s.data = s.data)
    (hnb : '\u00A0' ∉ s.data) (hem : '\u2003' ∉ s.data) (hen : '\u2002' ∉ s.data)
    (hnts : noTwoSpaces s.data = true)
    (hnum : hasNumbered s.data = false)
    (hbs : '\\' ∉ s.data) (hds : '$' ∉ s.data)
    (ha : '&' ∉ s.data) (hpc : '%' ∉ s.data) (hhs : '#' ∉ s.data)
    (hus : '_' ∉ s.data) (hnl : '\n' ∉ s.data) :
    html_to_latex soup (some s) q = s := by
  by_cases hs : s = ""
  · subst hs
    rfl
  · simp only [html_to_latex]
    rw [if_neg hs, if_pos hlt]
    have huni : unicodeSpaces s.data = s.data := by
      unfold unicodeSpaces
      rw [replaceChar_of_not_mem hnb, replaceChar_of_not_mem hem,
        replaceChar_of_not_mem hen]
    have hpre : preEscape s = s.data := by
      simp only [preEscape]
      rw [hstrip, huni, collapseSpaces_of_noTwoSpaces hnts, hnum]
      simp
    have hpp : plainPipeline s = s.data := by
      unfold plainPipeline
      rw [hpre, (contains_eq_false_iff _ _).mpr hbs,
        (contains_eq_false_iff _ _).mpr hds]
      simp only [Bool.or_self, Bool.false_eq_true, if_false]
      unfold escape5
      rw [replaceChar_of_not_mem ha, replaceChar_of_not_mem hpc,
        replaceChar_of_not_mem hds, replaceChar_of_not_mem hhs,
        replaceChar_of_not_mem hus]
    simp only [plainBranch, hpp, (contains_eq_false_iff _ _).mpr hnl,
      Bool.and_false, Bool.false_eq_true, if_false]

/-- C3_witness: the identity theorem at the concrete clean output
`"hello world"`, giving idempotence there. -/
theorem C3_identity_witness :
    html_to_latex (fun t => t) (some "hello world") false = "hello world" :=
  C3_identity_on_clean_strings (fun t => t) "hello world" false (by decide)
    (by decide) (by decide) (by decide) (by decide) (by decide) (by decide)
    (by decide) (by decide) (by decide) (by decide) (by decide) (by decide)
    (by decide)
